import Mathlib

/-
  Verification of the tail-and-batch-upload core of the log-forwarding agent
  (src/log-forwarding-agent/log-forwarding-agent.py).

  Shallow embedding: the source file is a list of bytes (List Nat, newline = 10);
  the Python readline call is modelled as taking bytes up to and including the
  next newline, or up to end of file when no newline remains (CPython semantics:
  readline returns a final unterminated segment as well).  The read loop of
  main() (lines 160-206 of the source) becomes a fuel-indexed structurally
  recursive function over an explicit loop state; fuel content.length + 1 is
  always enough since every consumed line is nonempty.

  Calls to upload_to_s3 are the observable effects; their outcomes come from an
  oracle uploadOk : Nat -> Bool indexed by the number of upload calls already
  made in the cycle, and each call is recorded in a ghost trace field attempts.
  write_last_position is modelled by the stateFilePos field, holding the last
  offset passed to it (the function itself swallows IOError, logging only).
-/

/- Configuration constants of the source. -/
def MAX_BATCH_SIZE_BYTES : Nat := 1 * 1024 * 1024

def MAX_BATCH_LINES : Nat := 500

def NEWLINE : Nat := 10

/- One call of f.readline() starting at the current position: bytes up to and
   including the first newline, or the whole remainder when no newline occurs
   before end of file. -/
def takeLine : List Nat → List Nat
  | [] => []
  | b :: bs => if b = NEWLINE then [b] else b :: takeLine bs

/- Ghost record of one call to upload_to_s3: the batch handed over, the values
   of last_position and new_position at the moment of the call, and the
   outcome. -/
structure UploadEvent where
  lines : List (List Nat)
  prevLast : Nat
  posAfter : Nat
  ok : Bool
deriving DecidableEq, Repr

/- The mutable locals of the read-and-upload cycle of main(). -/
structure LoopState where
  linesBatch : List (List Nat)
  batchSizeBytes : Nat
  newPosition : Nat
  lastPosition : Nat
  stateFilePos : Nat
  attempts : List UploadEvent
deriving DecidableEq, Repr

/- lines_batch.append(line); batch_size_bytes += line_bytes;
   new_position = f.tell() -/
def appendLine (s : LoopState) (line : List Nat) (fpos' : Nat) : LoopState :=
  { s with linesBatch := s.linesBatch ++ [line],
           batchSizeBytes := s.batchSizeBytes + line.length,
           newPosition := fpos' }

/- The inner while-loop of main() (source lines 166-199), fuel-indexed.
   fpos is the file descriptor position (advanced by every readline, even one
   whose line is dropped by the failure break); newPosition is the recorded
   position, updated only after an append, exactly as in the source. -/
def readLoopF (maxB maxL : Nat) (uploadOk : Nat → Bool) (content : List Nat) :
    Nat → Nat → LoopState → LoopState
  | 0, _, s => s
  | fuel + 1, fpos, s =>
    let line := takeLine (content.drop fpos)
    if line = [] then s
    else
      let fpos' := fpos + line.length
      if s.batchSizeBytes + line.length > maxB ∨ s.linesBatch.length ≥ maxL then
        if s.linesBatch = [] then
          readLoopF maxB maxL uploadOk content fuel fpos' (appendLine s line fpos')
        else
          let ok := uploadOk s.attempts.length
          let e : UploadEvent := ⟨s.linesBatch, s.lastPosition, s.newPosition, ok⟩
          if ok then
            readLoopF maxB maxL uploadOk content fuel fpos'
              (appendLine
                { s with attempts := s.attempts ++ [e],
                         stateFilePos := s.newPosition,
                         lastPosition := s.newPosition,
                         linesBatch := [], batchSizeBytes := 0 } line fpos')
          else
            { s with attempts := s.attempts ++ [e] }
      else
        readLoopF maxB maxL uploadOk content fuel fpos' (appendLine s line fpos')

/- The end-of-cycle flush (source lines 192-206): upload any remaining batch;
   on success commit new_position; otherwise, when the batch is empty but the
   position moved, commit the position without an upload. -/
def flush (uploadOk : Nat → Bool) (s : LoopState) : LoopState :=
  if s.linesBatch = [] then
    if s.newPosition > s.lastPosition then
      { s with stateFilePos := s.newPosition, lastPosition := s.newPosition }
    else s
  else
    let ok := uploadOk s.attempts.length
    let s' := { s with attempts :=
      s.attempts ++ [⟨s.linesBatch, s.lastPosition, s.newPosition, ok⟩] }
    if ok then
      { s' with stateFilePos := s.newPosition, lastPosition := s.newPosition }
    else s'

/- Loop-local state right after f.seek(last_position). -/
def initLoop (lastPos storePos : Nat) : LoopState :=
  ⟨[], 0, lastPos, lastPos, storePos, []⟩

/- One full read-and-upload pass over the opened file: the inner while loop
   followed by the end-of-cycle flush. -/
def readAndUpload (maxB maxL : Nat) (uploadOk : Nat → Bool) (content : List Nat)
    (lastPos storePos : Nat) : LoopState :=
  flush uploadOk
    (readLoopF maxB maxL uploadOk content (content.length + 1) lastPos
      (initLoop lastPos storePos))

/- Total byte size of a batch, sum of len(line.encode()) over its lines. -/
def batchBytes (b : List (List Nat)) : Nat := (b.map List.length).sum

/- The offset committed by the successful uploads of a trace, starting from a
   default: each successful event moves it to that event's posAfter. -/
def lastCommitted (evts : List UploadEvent) (d : Nat) : Nat :=
  evts.foldl (fun acc e => if e.ok then e.posAfter else acc) d

/- The lines of the first upload call of a cycle, when any was made. -/
def firstUploadLines (s : LoopState) : Option (List (List Nat)) :=
  s.attempts.head?.map fun e => e.lines

/- ----- The outer per-cycle state machine of main() ----- -/

/- The variables of main() that survive from one cycle to the next. -/
structure AgentState where
  lastPosition : Nat
  currentInode : Option Nat
  stateFilePos : Nat
deriving DecidableEq, Repr

/- Exception classes (all subclasses of Exception) that the body of a cycle
   can raise; KeyboardInterrupt and SystemExit derive from BaseException, are
   raised only by the operator, and are handled by the outer try of main(). -/
inductive PyExc where
  | fileNotFound
  | ioError
  | otherError
deriving DecidableEq, Repr

/- The environment one cycle observes: the stat of the log file, its content,
   injected exceptions for the stat and the open/read block, and the upload
   outcome oracle. -/
structure CycleEnv where
  fileExists : Bool
  statExc : Option PyExc
  inode : Nat
  size : Nat
  openExc : Option PyExc
  content : List Nat
  uploadOk : Nat → Bool

/- The rotation/truncation check of source lines 155-157: with a tracked inode,
   an inode change or a size below last_position resets the position to 0. -/
def rotationCheck (currentInode : Option Nat) (lastPosition inode size : Nat) :
    Nat :=
  match currentInode with
  | some i => if inode ≠ i ∨ size < lastPosition then 0 else lastPosition
  | none => lastPosition

/- The body of one cycle (source lines 144-210) up to the except clauses; an
   error result carries the exception class and the variable state at the
   raise point. -/
def cycleBody (env : CycleEnv) (st : AgentState) :
    Except (PyExc × AgentState) AgentState :=
  if env.fileExists = false then .ok st
  else
    match env.statExc with
    | some exc => .error (exc, st)
    | none =>
      let p := rotationCheck st.currentInode st.lastPosition env.inode env.size
      let st1 : AgentState :=
        { st with lastPosition := p, currentInode := some env.inode }
      if env.size > st1.lastPosition then
        match env.openExc with
        | some exc => .error (exc, st1)
        | none =>
          let r := readAndUpload MAX_BATCH_SIZE_BYTES MAX_BATCH_LINES
            env.uploadOk env.content st1.lastPosition st1.stateFilePos
          .ok { st1 with lastPosition := r.lastPosition,
                         stateFilePos := r.stateFilePos }
      else .ok st1

/- Which exception classes the except clauses of the cycle cover
   (FileNotFoundError, IOError, and the Exception catch-all). -/
def handles : PyExc → Bool
  | .fileNotFound => true
  | .ioError => true
  | .otherError => true

/- Result of one cycle: either proceed to the sleep and the next cycle, or an
   exception escapes the loop body. -/
inductive CycleOutcome where
  | next (st : AgentState)
  | crash (exc : PyExc)
deriving DecidableEq, Repr

/- One cycle with its except clauses (source lines 212-219): FileNotFoundError
   resets inode tracking and the in-memory position; IOError and the generic
   Exception handler keep the state as it was at the raise point. -/
def runCycle (env : CycleEnv) (st : AgentState) : CycleOutcome :=
  match cycleBody env st with
  | .ok st' => .next st'
  | .error (exc, stAt) =>
    if handles exc then
      match exc with
      | .fileNotFound =>
          .next { stAt with currentInode := none, lastPosition := 0 }
      | .ioError => .next stAt
      | .otherError => .next stAt
    else .crash exc

/- Python truthiness of an optional metadata string: None and the empty string
   are falsy. -/
def truthy : Option String → Bool
  | none => false
  | some s => !s.isEmpty

/- The startup gate of main() (source lines 129-131): the agent enters the
   loop only when both the instance id and the region were obtained. -/
def startupOk (instanceId region : Option String) : Bool :=
  truthy instanceId && truthy region

/- Reading the persisted offset back at process start
   (read_last_position on a well-formed state file). -/
def resumeAfterRestart (storePos : Nat) : AgentState :=
  ⟨storePos, none, storePos⟩

/- ----- Basic facts about takeLine ----- -/

theorem takeLine_eq_nil_iff {l : List Nat} : takeLine l = [] ↔ l = [] := by
  cases l with
  | nil => simp [takeLine]
  | cons b bs =>
    simp only [takeLine]
    constructor
    · intro h
      by_cases hb : b = NEWLINE <;> simp [hb] at h
    · intro h
      exact absurd h (List.cons_ne_nil b bs)

theorem takeLine_length_pos {l : List Nat} (h : l ≠ []) :
    0 < (takeLine l).length := by
  have : takeLine l ≠ [] := fun hc => h (takeLine_eq_nil_iff.mp hc)
  exact List.length_pos.mpr this

theorem takeLine_prefixOf (l : List Nat) : takeLine l <+: l := by
  induction l with
  | nil => simp [takeLine]
  | cons b bs ih =>
    simp only [takeLine]
    by_cases hb : b = NEWLINE
    · simp [hb]
    · simp only [hb, if_false]
      obtain ⟨t, ht⟩ := ih
      exact ⟨t, by rw [List.cons_append, ht]⟩

theorem takeLine_length_le (l : List Nat) : (takeLine l).length ≤ l.length :=
  (takeLine_prefixOf l).length_le

theorem takeLine_eq_take (l : List Nat) :
    takeLine l = l.take (takeLine l).length := by
  have h := takeLine_prefixOf l
  exact (List.prefix_iff_eq_take.mp h)

theorem takeLine_getLast {l : List Nat} (h : l ≠ [])
    (hn : l.getLast? = some NEWLINE) :
    (takeLine l).getLast? = some NEWLINE := by
  induction l with
  | nil => exact absurd rfl h
  | cons b bs ih =>
    by_cases hb : b = NEWLINE
    · simp [takeLine, hb]
    · simp only [takeLine, hb, if_false]
      cases bs with
      | nil =>
        simp [List.getLast?] at hn
        exact absurd hn hb
      | cons c cs =>
        have hbs : (c :: cs : List Nat) ≠ [] := List.cons_ne_nil c cs
        have hn' : (c :: cs : List Nat).getLast? = some NEWLINE := by
          rwa [List.getLast?_cons_cons] at hn
        have htl : takeLine (c :: cs) ≠ [] :=
          fun hc => hbs (takeLine_eq_nil_iff.mp hc)
        have hlast := ih hbs hn'
        obtain ⟨d, ds, hd⟩ := List.exists_cons_of_ne_nil htl
        rw [hd] at hlast
        rw [hd, List.getLast?_cons_cons]
        exact hlast

/- ----- The span invariant of the read loop ----- -/

/- A recorded upload call is well-formed: its position jump equals the byte
   size of its batch, and the batch is exactly the file bytes between the two
   positions. -/
def EventSpan (content : List Nat) (e : UploadEvent) : Prop :=
  e.posAfter = e.prevLast + batchBytes e.lines ∧
  e.lines.flatten = (content.drop e.prevLast).take (batchBytes e.lines) ∧
  e.lines ≠ []

/- Invariant tying the loop locals together: byte counter matches the batch,
   new_position sits exactly batchSizeBytes past last_position, the batch is
   the file bytes in between, and the cursor variables equal the value of the
   last successful committed upload. -/
def Span (content : List Nat) (L0 S0 : Nat) (s : LoopState) : Prop :=
  s.batchSizeBytes = batchBytes s.linesBatch ∧
  s.newPosition = s.lastPosition + s.batchSizeBytes ∧
  s.linesBatch.flatten = (content.drop s.lastPosition).take s.batchSizeBytes ∧
  s.lastPosition = lastCommitted s.attempts L0 ∧
  s.stateFilePos = lastCommitted s.attempts S0 ∧
  (∀ e ∈ s.attempts, EventSpan content e)

theorem lastCommitted_append (a : List UploadEvent) (e : UploadEvent) (d : Nat) :
    lastCommitted (a ++ [e]) d =
      if e.ok then e.posAfter else lastCommitted a d := by
  simp [lastCommitted, List.foldl_append]

theorem span_append (content : List Nat) (L0 S0 : Nat) (s : LoopState)
    (hs : Span content L0 S0 s) :
    Span content L0 S0
      (appendLine s (takeLine (content.drop s.newPosition))
        (s.newPosition + (takeLine (content.drop s.newPosition)).length)) := by
  obtain ⟨h1, h2, h3, h4, h5, h6⟩ := hs
  refine ⟨?_, ?_, ?_, h4, h5, h6⟩
  · simp [appendLine, batchBytes, h1]
  · simp only [appendLine]
    omega
  · simp only [appendLine, List.flatten_append, List.flatten_cons,
      List.flatten_nil, List.append_nil]
    rw [List.take_add, ← h3, List.drop_drop, ← h2]
    exact congrArg (s.linesBatch.flatten ++ ·) (takeLine_eq_take _)

theorem span_commit (content : List Nat) (L0 S0 : Nat) (s : LoopState)
    (hs : Span content L0 S0 s) (hne : s.linesBatch ≠ []) :
    Span content L0 S0
      { s with
        attempts :=
          s.attempts ++ [⟨s.linesBatch, s.lastPosition, s.newPosition, true⟩],
        stateFilePos := s.newPosition, lastPosition := s.newPosition,
        linesBatch := [], batchSizeBytes := 0 } := by
  obtain ⟨h1, h2, h3, h4, h5, h6⟩ := hs
  refine ⟨by simp [batchBytes], by simp, by simp, ?_, ?_, ?_⟩
  · simp [lastCommitted_append]
  · simp [lastCommitted_append]
  · intro e he
    rcases List.mem_append.mp he with hmem | hmem
    · exact h6 e hmem
    · rcases List.mem_singleton.mp hmem with rfl
      exact ⟨by rw [← h1]; exact h2, by rw [← h1]; exact h3, hne⟩

theorem span_fail (content : List Nat) (L0 S0 : Nat) (s : LoopState)
    (ok : Bool) (hok : ok = false)
    (hs : Span content L0 S0 s) (hne : s.linesBatch ≠ []) :
    Span content L0 S0
      { s with
        attempts :=
          s.attempts ++ [⟨s.linesBatch, s.lastPosition, s.newPosition, ok⟩] }
      := by
  obtain ⟨h1, h2, h3, h4, h5, h6⟩ := hs
  refine ⟨h1, h2, h3, ?_, ?_, ?_⟩
  · simp [lastCommitted_append, hok]
    exact h4
  · simp [lastCommitted_append, hok]
    exact h5
  · intro e he
    rcases List.mem_append.mp he with hmem | hmem
    · exact h6 e hmem
    · rcases List.mem_singleton.mp hmem with rfl
      exact ⟨by rw [← h1]; exact h2, by rw [← h1]; exact h3, hne⟩

theorem readLoopF_span (maxB maxL : Nat) (uploadOk : Nat → Bool)
    (content : List Nat) (L0 S0 : Nat) :
    ∀ fuel fpos s, fpos = s.newPosition → Span content L0 S0 s →
      Span content L0 S0 (readLoopF maxB maxL uploadOk content fuel fpos s) := by
  intro fuel
  induction fuel with
  | zero =>
    intro fpos s _ hs
    simpa [readLoopF] using hs
  | succ fuel ih =>
    intro fpos s hfp hs
    subst hfp
    simp only [readLoopF]
    split
    · exact hs
    · split
      · split
        · exact ih _ _ rfl (span_append content L0 S0 s hs)
        · rename_i hemp
          split
          · rename_i hok
            simp only [hok]
            exact ih _ _ rfl
              (span_append content L0 S0 _ (span_commit content L0 S0 s hs hemp))
          · rename_i hok
            exact span_fail content L0 S0 s _ (by simpa using hok) hs hemp
      · exact ih _ _ rfl (span_append content L0 S0 s hs)

theorem flush_span (uploadOk : Nat → Bool) (content : List Nat) (L0 S0 : Nat)
    (s : LoopState) (hs : Span content L0 S0 s) :
    (∀ e ∈ (flush uploadOk s).attempts, EventSpan content e) ∧
    (flush uploadOk s).lastPosition =
      lastCommitted (flush uploadOk s).attempts L0 ∧
    (flush uploadOk s).stateFilePos =
      lastCommitted (flush uploadOk s).attempts S0 := by
  obtain ⟨h1, h2, h3, h4, h5, h6⟩ := hs
  by_cases hemp : s.linesBatch = []
  · have hz : s.batchSizeBytes = 0 := by
      rw [h1, hemp]; simp [batchBytes]
    have hnp : s.newPosition = s.lastPosition := by omega
    have hstate : flush uploadOk s = s := by
      simp [flush, hemp, hnp]
    rw [hstate]
    exact ⟨h6, h4, h5⟩
  · simp only [flush, hemp, if_neg, if_false]
    by_cases hok : uploadOk s.attempts.length = true
    · simp only [hok, if_true]
      refine ⟨?_, ?_, ?_⟩
      · intro e he
        rcases List.mem_append.mp he with hmem | hmem
        · exact h6 e hmem
        · rcases List.mem_singleton.mp hmem with rfl
          exact ⟨by rw [← h1]; exact h2, by rw [← h1]; exact h3, hemp⟩
      · simp [lastCommitted_append, hok]
      · simp [lastCommitted_append, hok]
    · simp only [hok, if_false]
      refine ⟨?_, ?_, ?_⟩
      · intro e he
        rcases List.mem_append.mp he with hmem | hmem
        · exact h6 e hmem
        · rcases List.mem_singleton.mp hmem with rfl
          exact ⟨by rw [← h1]; exact h2, by rw [← h1]; exact h3, hemp⟩
      · simp [lastCommitted_append, hok, h4]
      · simp [lastCommitted_append, hok, h5]

theorem initLoop_span (content : List Nat) (lastPos storePos : Nat) :
    Span content lastPos storePos (initLoop lastPos storePos) := by
  refine ⟨rfl, rfl, rfl, rfl, rfl, ?_⟩
  intro e he
  simp [initLoop] at he

/- ----- The ceiling invariant of the read loop ----- -/

/- A batch respects the configured ceilings, or is a single line that alone
   exceeds the byte ceiling. -/
def BatchCeil (maxB maxL : Nat) (b : List (List Nat)) : Prop :=
  (batchBytes b ≤ maxB ∧ b.length ≤ maxL) ∨ ∃ l, b = [l] ∧ maxB < l.length

/- Ceiling invariant: the byte counter is in sync with the batch, the current
   batch respects the ceilings, and so did every batch handed to an upload. -/
def CeilInv (maxB maxL : Nat) (s : LoopState) : Prop :=
  s.batchSizeBytes = batchBytes s.linesBatch ∧
  BatchCeil maxB maxL s.linesBatch ∧
  ∀ e ∈ s.attempts, BatchCeil maxB maxL e.lines

theorem batchBytes_append (b : List (List Nat)) (l : List Nat) :
    batchBytes (b ++ [l]) = batchBytes b + l.length := by
  simp [batchBytes]

theorem batchCeil_singleton {maxB maxL : Nat} (hL : 1 ≤ maxL) (l : List Nat) :
    BatchCeil maxB maxL [l] := by
  by_cases hlen : l.length ≤ maxB
  · exact Or.inl ⟨by simpa [batchBytes] using hlen, by simpa using hL⟩
  · exact Or.inr ⟨l, rfl, by omega⟩

theorem readLoopF_ceil (maxB maxL : Nat) (uploadOk : Nat → Bool)
    (content : List Nat) (hL : 1 ≤ maxL) :
    ∀ fuel fpos s, CeilInv maxB maxL s →
      CeilInv maxB maxL (readLoopF maxB maxL uploadOk content fuel fpos s) := by
  intro fuel
  induction fuel with
  | zero =>
    intro fpos s hc
    simpa [readLoopF] using hc
  | succ fuel ih =>
    intro fpos s hc
    obtain ⟨h0, hbc, hev⟩ := hc
    simp only [readLoopF]
    split
    · exact ⟨h0, hbc, hev⟩
    · rename_i hline
      split
      · rename_i hover
        split
        · rename_i hemp
          refine ih _ _ ⟨?_, ?_, ?_⟩
          · simp [appendLine, batchBytes_append, h0]
          · simp only [appendLine, hemp, List.nil_append]
            exact batchCeil_singleton hL _
          · simpa [appendLine] using hev
        · rename_i hemp
          split
          · rename_i hok
            refine ih _ _ ⟨?_, ?_, ?_⟩
            · simp [appendLine, batchBytes]
            · simp only [appendLine, List.nil_append]
              exact batchCeil_singleton hL _
            · simp only [appendLine]
              intro e he
              rcases List.mem_append.mp he with hmem | hmem
              · exact hev e hmem
              · rcases List.mem_singleton.mp hmem with rfl
                exact hbc
          · rename_i hok
            refine ⟨h0, hbc, ?_⟩
            intro e he
            rcases List.mem_append.mp he with hmem | hmem
            · exact hev e hmem
            · rcases List.mem_singleton.mp hmem with rfl
              exact hbc
      · rename_i hover
        have hsmall : s.batchSizeBytes + (takeLine (content.drop fpos)).length ≤
            maxB ∧ s.linesBatch.length < maxL := by
          push_neg at hover
          omega
        refine ih _ _ ⟨?_, Or.inl ⟨?_, ?_⟩, ?_⟩
        · simp [appendLine, batchBytes_append, h0]
        · simp only [appendLine, batchBytes_append, ← h0]
          exact hsmall.1
        · simp only [appendLine, List.length_append, List.length_singleton]
          omega
        · simpa [appendLine] using hev

theorem flush_ceil (uploadOk : Nat → Bool) (maxB maxL : Nat) (s : LoopState)
    (hc : CeilInv maxB maxL s) :
    ∀ e ∈ (flush uploadOk s).attempts, BatchCeil maxB maxL e.lines := by
  obtain ⟨h0, hbc, hev⟩ := hc
  by_cases hemp : s.linesBatch = []
  · intro e he
    simp only [flush, hemp, if_true] at he
    split at he <;> exact hev e he
  · intro e he
    simp only [flush, hemp, if_false] at he
    split at he <;>
    · simp only at he
      rcases List.mem_append.mp he with hmem | hmem
      · exact hev e hmem
      · rcases List.mem_singleton.mp hmem with rfl
        exact hbc

/- ----- Failure-path lemmas ----- -/

theorem readLoopF_attempts_mono (maxB maxL : Nat) (uploadOk : Nat → Bool)
    (content : List Nat) :
    ∀ fuel fpos s, ∃ t,
      (readLoopF maxB maxL uploadOk content fuel fpos s).attempts =
        s.attempts ++ t := by
  intro fuel
  induction fuel with
  | zero =>
    intro fpos s
    exact ⟨[], by simp [readLoopF]⟩
  | succ fuel ih =>
    intro fpos s
    simp only [readLoopF]
    split
    · exact ⟨[], by simp⟩
    · split
      · split
        · obtain ⟨t, ht⟩ := ih _ (appendLine s _ _)
          exact ⟨t, by simpa [appendLine] using ht⟩
        · split
          · rename_i hok
            obtain ⟨t, ht⟩ := ih _ (appendLine _ _ _)
            refine ⟨⟨s.linesBatch, s.lastPosition, s.newPosition,
              uploadOk s.attempts.length⟩ :: t, ?_⟩
            rw [ht]
            simp [appendLine]
          · exact ⟨[⟨s.linesBatch, s.lastPosition, s.newPosition,
                uploadOk s.attempts.length⟩], by simp⟩
      · obtain ⟨t, ht⟩ := ih _ (appendLine s _ _)
        exact ⟨t, by simpa [appendLine] using ht⟩

theorem readLoopF_allfail (maxB maxL : Nat) (uploadOk : Nat → Bool)
    (content : List Nat) (hfail : ∀ n, uploadOk n = false) :
    ∀ fuel fpos s, (∀ e ∈ s.attempts, e.ok = false) →
      ∀ e ∈ (readLoopF maxB maxL uploadOk content fuel fpos s).attempts,
        e.ok = false := by
  intro fuel
  induction fuel with
  | zero =>
    intro fpos s hs
    simpa [readLoopF] using hs
  | succ fuel ih =>
    intro fpos s hs
    simp only [readLoopF]
    split
    · exact hs
    · split
      · split
        · exact ih _ _ (by simpa [appendLine] using hs)
        · split
          · rename_i hok
            rw [hfail] at hok
            exact absurd hok (by simp)
          · intro e he
            simp only at he
            rcases List.mem_append.mp he with hmem | hmem
            · exact hs e hmem
            · rcases List.mem_singleton.mp hmem with rfl
              exact hfail _
      · exact ih _ _ (by simpa [appendLine] using hs)

theorem readLoopF_fail (maxB maxL : Nat) (uploadOk : Nat → Bool)
    (content : List Nat) :
    ∀ fuel fpos s, (∀ e ∈ s.attempts, e.ok = true) →
      (∀ e ∈ (readLoopF maxB maxL uploadOk content fuel fpos s).attempts,
          e.ok = true) ∨
      ∃ a e, (readLoopF maxB maxL uploadOk content fuel fpos s).attempts =
            a ++ [e] ∧
          e.ok = false ∧ (∀ x ∈ a, x.ok = true) ∧
          (readLoopF maxB maxL uploadOk content fuel fpos s).linesBatch =
            e.lines ∧
          (readLoopF maxB maxL uploadOk content fuel fpos s).lastPosition =
            e.prevLast ∧
          (readLoopF maxB maxL uploadOk content fuel fpos s).newPosition =
            e.posAfter ∧
          e.lines ≠ [] := by
  intro fuel
  induction fuel with
  | zero =>
    intro fpos s hs
    left
    simpa [readLoopF] using hs
  | succ fuel ih =>
    intro fpos s hs
    simp only [readLoopF]
    split
    · exact Or.inl hs
    · split
      · split
        · exact ih _ _ (by simpa [appendLine] using hs)
        · rename_i hemp
          split
          · rename_i hok
            refine ih _ _ ?_
            simp only [appendLine]
            intro e he
            rcases List.mem_append.mp he with hmem | hmem
            · exact hs e hmem
            · rcases List.mem_singleton.mp hmem with rfl
              simpa using hok
          · rename_i hok
            right
            refine ⟨s.attempts,
              ⟨s.linesBatch, s.lastPosition, s.newPosition,
                uploadOk s.attempts.length⟩,
              by simp, by simpa using hok, hs, rfl, rfl, rfl, hemp⟩
      · exact ih _ _ (by simpa [appendLine] using hs)

theorem head?_append_left {α : Type} (l1 l2 : List α) (h : l1 ≠ []) :
    (l1 ++ l2).head? = l1.head? := by
  cases l1 with
  | nil => exact absurd rfl h
  | cons a t => simp

/- ----- Completeness: with succeeding uploads the loop reads to EOF ----- -/

theorem readLoopF_complete (maxB maxL : Nat) (uploadOk : Nat → Bool)
    (content : List Nat) (hok : ∀ n, uploadOk n = true) :
    ∀ fuel fpos s, content.length ≤ fpos + fuel → fpos = s.newPosition →
      fpos ≤ content.length →
      (readLoopF maxB maxL uploadOk content fuel fpos s).newPosition =
          content.length ∧
      ((s.linesBatch ≠ [] ∨ fpos < content.length) →
        (readLoopF maxB maxL uploadOk content fuel fpos s).linesBatch ≠ []) := by
  intro fuel
  induction fuel with
  | zero =>
    intro fpos s hle hfp hfle
    have hfl : fpos = content.length := by omega
    simp only [readLoopF]
    refine ⟨by omega, ?_⟩
    intro h
    rcases h with h | h
    · exact h
    · omega
  | succ fuel ih =>
    intro fpos s hle hfp hfle
    simp only [readLoopF]
    split
    · rename_i hline
      have hdrop : content.drop fpos = [] := takeLine_eq_nil_iff.mp hline
      have hlen : content.length ≤ fpos := List.drop_eq_nil_iff.mp hdrop
      refine ⟨by omega, ?_⟩
      intro h
      rcases h with h | h
      · exact h
      · omega
    · rename_i hline
      have hdropne : content.drop fpos ≠ [] :=
        fun hc => hline (takeLine_eq_nil_iff.mpr hc)
      have hfposlt : fpos < content.length := by
        by_contra hcon
        push_neg at hcon
        exact hdropne (List.drop_eq_nil_of_le hcon)
      have hll1 : 0 < (takeLine (content.drop fpos)).length :=
        takeLine_length_pos hdropne
      have hllle : (takeLine (content.drop fpos)).length ≤
          content.length - fpos := by
        have h := takeLine_length_le (content.drop fpos)
        simpa using h
      have hstep : ∀ s' : LoopState,
          fpos + (takeLine (content.drop fpos)).length = s'.newPosition →
          s'.linesBatch ≠ [] →
          (readLoopF maxB maxL uploadOk content fuel
              (fpos + (takeLine (content.drop fpos)).length) s').newPosition =
            content.length ∧
          (readLoopF maxB maxL uploadOk content fuel
              (fpos + (takeLine (content.drop fpos)).length) s').linesBatch ≠
            [] := by
        intro s' hs' hb
        obtain ⟨hpos, hbat⟩ :=
          ih (fpos + (takeLine (content.drop fpos)).length) s'
            (by omega) hs' (by omega)
        exact ⟨hpos, hbat (Or.inl hb)⟩
      split
      · split
        · exact ⟨(hstep _ rfl (by simp [appendLine])).1,
            fun _ => (hstep _ rfl (by simp [appendLine])).2⟩
        · split
          · exact ⟨(hstep _ rfl (by simp [appendLine])).1,
              fun _ => (hstep _ rfl (by simp [appendLine])).2⟩
          · rename_i hokn
            exact absurd (hok s.attempts.length) hokn
      · exact ⟨(hstep _ rfl (by simp [appendLine])).1,
          fun _ => (hstep _ rfl (by simp [appendLine])).2⟩

/- ----- Newline termination of handed lines ----- -/

theorem getLast?_drop_of_ne_nil {l : List Nat} {n : Nat} (h : l.drop n ≠ []) :
    (l.drop n).getLast? = l.getLast? := by
  conv_rhs => rw [← List.take_append_drop n l]
  exact (List.getLast?_append_of_ne_nil (l.take n) h).symm

theorem readLoopF_newline (maxB maxL : Nat) (uploadOk : Nat → Bool)
    (content : List Nat) (hterm : content.getLast? = some NEWLINE) :
    ∀ fuel fpos s,
      (∀ e ∈ s.attempts, ∀ l ∈ e.lines, l.getLast? = some NEWLINE) →
      (∀ l ∈ s.linesBatch, l.getLast? = some NEWLINE) →
      (∀ e ∈ (readLoopF maxB maxL uploadOk content fuel fpos s).attempts,
        ∀ l ∈ e.lines, l.getLast? = some NEWLINE) ∧
      (∀ l ∈ (readLoopF maxB maxL uploadOk content fuel fpos s).linesBatch,
        l.getLast? = some NEWLINE) := by
  intro fuel
  induction fuel with
  | zero =>
    intro fpos s hev hba
    simpa [readLoopF] using ⟨hev, hba⟩
  | succ fuel ih =>
    intro fpos s hev hba
    simp only [readLoopF]
    split
    · exact ⟨hev, hba⟩
    · rename_i hline
      have hdropne : content.drop fpos ≠ [] :=
        fun hc => hline (takeLine_eq_nil_iff.mpr hc)
      have hlast : (takeLine (content.drop fpos)).getLast? = some NEWLINE :=
        takeLine_getLast hdropne (by rw [getLast?_drop_of_ne_nil hdropne, hterm])
      have happ : ∀ s' : LoopState,
          (∀ l ∈ s'.linesBatch, l.getLast? = some NEWLINE) →
          ∀ l ∈ (appendLine s' (takeLine (content.drop fpos))
              (fpos + (takeLine (content.drop fpos)).length)).linesBatch,
            l.getLast? = some NEWLINE := by
        intro s' hb l hl
        simp only [appendLine, List.mem_append, List.mem_singleton] at hl
        rcases hl with hl | rfl
        · exact hb l hl
        · exact hlast
      split
      · split
        · exact ih _ _ (by simpa [appendLine] using hev) (happ s hba)
        · split
          · refine ih _ _ ?_ (happ _ (by simp [appendLine]))
            simp only [appendLine]
            intro e he
            rcases List.mem_append.mp he with hmem | hmem
            · exact hev e hmem
            · rcases List.mem_singleton.mp hmem with rfl
              exact hba
          · refine ⟨?_, hba⟩
            simp only
            intro e he
            rcases List.mem_append.mp he with hmem | hmem
            · exact hev e hmem
            · rcases List.mem_singleton.mp hmem with rfl
              exact hba
      · exact ih _ _ (by simpa [appendLine] using hev) (happ s hba)

/- ----- The first upload call does not depend on the upload outcomes ----- -/

theorem readLoopF_indep (maxB maxL : Nat) (content : List Nat)
    (ok1 ok2 : Nat → Bool) :
    ∀ fuel fpos s, s.attempts = [] →
      firstUploadLines (readLoopF maxB maxL ok1 content fuel fpos s) =
        firstUploadLines (readLoopF maxB maxL ok2 content fuel fpos s) ∧
      ((readLoopF maxB maxL ok1 content fuel fpos s).attempts = [] →
        readLoopF maxB maxL ok1 content fuel fpos s =
          readLoopF maxB maxL ok2 content fuel fpos s) := by
  intro fuel
  induction fuel with
  | zero =>
    intro fpos s hs
    exact ⟨rfl, fun _ => rfl⟩
  | succ fuel ih =>
    intro fpos s hs
    simp only [readLoopF]
    by_cases hline : takeLine (content.drop fpos) = []
    · simp [hline]
    · simp only [hline, if_false]
      by_cases hover : s.batchSizeBytes +
          (takeLine (content.drop fpos)).length > maxB ∨
          s.linesBatch.length ≥ maxL
      · simp only [hover, if_true]
        by_cases hemp : s.linesBatch = []
        · simp only [hemp, if_true]
          exact ih _ _ (by simpa [appendLine] using hs)
        · simp only [hemp, if_false]
          have hfirst : ∀ ok' : Nat → Bool, ∀ s' : LoopState,
              s'.attempts = s.attempts ++
                [⟨s.linesBatch, s.lastPosition, s.newPosition,
                  ok' s.attempts.length⟩] →
              ∀ fp', firstUploadLines
                  (readLoopF maxB maxL ok' content fuel fp' s') =
                some s.linesBatch ∧
                (readLoopF maxB maxL ok' content fuel fp' s').attempts ≠
                  [] := by
            intro ok' s' hs' fp'
            obtain ⟨t, ht⟩ :=
              readLoopF_attempts_mono maxB maxL ok' content fuel fp' s'
            rw [hs', hs] at ht
            simp only [List.nil_append] at ht
            constructor
            · simp [firstUploadLines, ht]
            · simp [ht]
          by_cases h1 : ok1 s.attempts.length = true
          · simp only [h1, if_true]
            by_cases h2 : ok2 s.attempts.length = true
            · simp only [h2, if_true]
              refine ⟨?_, ?_⟩
              · rw [(hfirst ok1 _ (by simp [appendLine, h1]) _).1,
                  (hfirst ok2 _ (by simp [appendLine, h2]) _).1]
              · intro hcon
                exact absurd hcon (hfirst ok1 _ (by simp [appendLine, h1]) _).2
            · simp only [h2, if_false]
              refine ⟨?_, ?_⟩
              · rw [(hfirst ok1 _ (by simp [appendLine, h1]) _).1]
                simp [firstUploadLines, hs]
              · intro hcon
                exact absurd hcon (hfirst ok1 _ (by simp [appendLine, h1]) _).2
          · simp only [h1, if_false]
            by_cases h2 : ok2 s.attempts.length = true
            · simp only [h2, if_true]
              refine ⟨?_, ?_⟩
              · rw [(hfirst ok2 _ (by simp [appendLine, h2]) _).1]
                simp [firstUploadLines, hs]
              · intro hcon
                rw [hs] at hcon
                simp at hcon
            · simp only [h2, if_false]
              refine ⟨rfl, ?_⟩
              intro hcon
              rw [hs] at hcon
              simp at hcon
      · simp only [hover, if_false]
        exact ih _ _ (by simpa [appendLine] using hs)

theorem firstUploadLines_none_iff (s : LoopState) :
    firstUploadLines s = none ↔ s.attempts = [] := by
  simp [firstUploadLines]

theorem flush_firstUpload (uploadOk : Nat → Bool) (s : LoopState)
    (h : s.attempts ≠ []) :
    firstUploadLines (flush uploadOk s) = firstUploadLines s := by
  by_cases hemp : s.linesBatch = []
  · simp only [flush, hemp, if_true]
    split <;> rfl
  · simp only [flush, hemp, if_false]
    split <;>
    · simp only [firstUploadLines]
      rw [head?_append_left _ _ h]

theorem readAndUpload_first_indep (maxB maxL : Nat) (content : List Nat)
    (lastPos storePos : Nat) (ok1 ok2 : Nat → Bool) :
    firstUploadLines (readAndUpload maxB maxL ok1 content lastPos storePos) =
      firstUploadLines (readAndUpload maxB maxL ok2 content lastPos storePos)
    := by
  obtain ⟨hfl, heq⟩ := readLoopF_indep maxB maxL content ok1 ok2
    (content.length + 1) lastPos (initLoop lastPos storePos) rfl
  by_cases hA : (readLoopF maxB maxL ok1 content (content.length + 1) lastPos
      (initLoop lastPos storePos)).attempts = []
  · rw [readAndUpload, readAndUpload, ← heq hA]
    by_cases hemp : (readLoopF maxB maxL ok1 content (content.length + 1)
        lastPos (initLoop lastPos storePos)).linesBatch = []
    · simp only [flush, hemp, if_true]
    · have hcomp : ∀ ok' : Nat → Bool,
          firstUploadLines (flush ok' (readLoopF maxB maxL ok1 content
            (content.length + 1) lastPos (initLoop lastPos storePos))) =
          some (readLoopF maxB maxL ok1 content (content.length + 1) lastPos
            (initLoop lastPos storePos)).linesBatch := by
        intro ok'
        simp only [flush, hemp, if_false]
        split <;> simp [firstUploadLines, hA]
      rw [hcomp ok1, hcomp ok2]
  · have hsome : firstUploadLines (readLoopF maxB maxL ok1 content
        (content.length + 1) lastPos (initLoop lastPos storePos)) ≠ none := by
      intro hcon
      exact hA ((firstUploadLines_none_iff _).mp hcon)
    have hB : (readLoopF maxB maxL ok2 content (content.length + 1) lastPos
        (initLoop lastPos storePos)).attempts ≠ [] := by
      intro hcon
      apply hsome
      rw [hfl]
      exact (firstUploadLines_none_iff _).mpr hcon
    rw [readAndUpload, readAndUpload, flush_firstUpload _ _ hA,
      flush_firstUpload _ _ hB]
    exact hfl

/- ----- Remaining helper lemmas ----- -/

theorem lastCommitted_allfalse :
    ∀ (evts : List UploadEvent) (d : Nat),
      (∀ e ∈ evts, e.ok = false) → lastCommitted evts d = d := by
  intro evts
  induction evts with
  | nil =>
    intro d _
    rfl
  | cons e rest ih =>
    intro d h
    have he : e.ok = false := h e (by simp)
    simp only [lastCommitted, List.foldl_cons, he, Bool.false_eq_true,
      if_false]
    exact ih d fun x hx => h x (List.mem_cons_of_mem e hx)

theorem flush_attempts_cases (uploadOk : Nat → Bool) (s : LoopState)
    (e : UploadEvent) (he : e ∈ (flush uploadOk s).attempts) :
    e ∈ s.attempts ∨
      e = ⟨s.linesBatch, s.lastPosition, s.newPosition,
        uploadOk s.attempts.length⟩ := by
  by_cases hemp : s.linesBatch = []
  · simp only [flush, hemp, if_true] at he
    split at he
    · exact Or.inl he
    · exact Or.inl he
  · simp only [flush, hemp, if_false] at he
    split at he <;>
    · simp only at he
      rcases List.mem_append.mp he with h | h
      · exact Or.inl h
      · exact Or.inr (List.mem_singleton.mp h)

theorem readAndUpload_allfail (maxB maxL : Nat) (uploadOk : Nat → Bool)
    (hfail : ∀ n, uploadOk n = false) (content : List Nat)
    (lastPos storePos : Nat) :
    (∀ e ∈ (readAndUpload maxB maxL uploadOk content lastPos
        storePos).attempts, e.ok = false) ∧
    (readAndUpload maxB maxL uploadOk content lastPos
        storePos).lastPosition = lastPos ∧
    (readAndUpload maxB maxL uploadOk content lastPos
        storePos).stateFilePos = storePos := by
  have hloopfail := readLoopF_allfail maxB maxL uploadOk content hfail
    (content.length + 1) lastPos (initLoop lastPos storePos)
    (by simp [initLoop])
  have hall : ∀ e ∈ (readAndUpload maxB maxL uploadOk content lastPos
      storePos).attempts, e.ok = false := by
    intro e he
    rcases flush_attempts_cases uploadOk _ e he with h | rfl
    · exact hloopfail e h
    · exact hfail _
  have hspan := readLoopF_span maxB maxL uploadOk content lastPos storePos
    (content.length + 1) lastPos (initLoop lastPos storePos) rfl
    (initLoop_span content lastPos storePos)
  obtain ⟨-, hlast, hstore⟩ :=
    flush_span uploadOk content lastPos storePos _ hspan
  rw [readAndUpload] at hall ⊢
  refine ⟨hall, ?_, ?_⟩
  · rw [hlast]
    exact lastCommitted_allfalse _ _ hall
  · rw [hstore]
    exact lastCommitted_allfalse _ _ hall

theorem cycleBody_error_store (env : CycleEnv) (st : AgentState)
    (exc : PyExc) (stAt : AgentState)
    (h : cycleBody env st = .error (exc, stAt)) :
    stAt.stateFilePos = st.stateFilePos := by
  simp only [cycleBody] at h
  split at h
  · exact absurd h (by simp)
  · split at h
    · rename_i hstat
      simp only [Except.error.injEq, Prod.mk.injEq] at h
      rw [← h.2]
    · split at h
      · split at h
        · rename_i hopen
          simp only [Except.error.injEq, Prod.mk.injEq] at h
          rw [← h.2]
        · exact absurd h (by simp)
      · exact absurd h (by simp)

/- Shared core of the FileNotFoundError handler behaviour. -/
theorem fnf_reset_core (env : CycleEnv) (st : AgentState) (stAt : AgentState)
    (h : cycleBody env st = .error (PyExc.fileNotFound, stAt)) :
    runCycle env st = CycleOutcome.next ⟨0, none, st.stateFilePos⟩ := by
  have hstore := cycleBody_error_store env st _ _ h
  simp only [runCycle, h, handles, if_true]
  have hst : ({ stAt with currentInode := none, lastPosition := 0 } :
      AgentState) = ⟨0, none, st.stateFilePos⟩ := by
    cases stAt
    simp_all
  rw [hst]

/- ----- Test fixture from the end-to-end upload scheme ----- -/

/- One 100-byte log line: 99 payload bytes and a terminating newline. -/
def line100 : List Nat := List.replicate 99 97 ++ [10]

/- A source file of ten such lines, 1000 bytes in total. -/
def content1000 : List Nat := (List.replicate 10 line100).flatten

/- ----- Claims ----- -/

/-- Claim C1: in every read-and-upload cycle the cursor (the in-memory offset
and every value written to the cursor store) equals the position of the last
successful upload, every upload call carries exactly the file bytes lying
between its recorded old offset and new offset, and the end-of-cycle branch
that would commit a moved position with an empty batch is dead: an empty batch
at the end of the loop forces the recorded position back onto the committed
cursor and the flush leaves the state untouched. -/
theorem c1_cursor_commits (maxB maxL : Nat) (uploadOk : Nat → Bool)
    (content : List Nat) (lastPos storePos : Nat) :
    (∀ e ∈ (readAndUpload maxB maxL uploadOk content lastPos
        storePos).attempts,
      e.posAfter = e.prevLast + batchBytes e.lines ∧
      e.lines.flatten = (content.drop e.prevLast).take (batchBytes e.lines)) ∧
    (readAndUpload maxB maxL uploadOk content lastPos storePos).lastPosition =
      lastCommitted
        (readAndUpload maxB maxL uploadOk content lastPos storePos).attempts
        lastPos ∧
    (readAndUpload maxB maxL uploadOk content lastPos storePos).stateFilePos =
      lastCommitted
        (readAndUpload maxB maxL uploadOk content lastPos storePos).attempts
        storePos ∧
    ((readLoopF maxB maxL uploadOk content (content.length + 1) lastPos
        (initLoop lastPos storePos)).linesBatch = [] →
      (readLoopF maxB maxL uploadOk content (content.length + 1) lastPos
          (initLoop lastPos storePos)).newPosition =
        (readLoopF maxB maxL uploadOk content (content.length + 1) lastPos
          (initLoop lastPos storePos)).lastPosition ∧
      flush uploadOk (readLoopF maxB maxL uploadOk content
          (content.length + 1) lastPos (initLoop lastPos storePos)) =
        readLoopF maxB maxL uploadOk content (content.length + 1) lastPos
          (initLoop lastPos storePos)) := by
  have hspan := readLoopF_span maxB maxL uploadOk content lastPos storePos
    (content.length + 1) lastPos (initLoop lastPos storePos) rfl
    (initLoop_span content lastPos storePos)
  obtain ⟨hev, hlast, hstore⟩ :=
    flush_span uploadOk content lastPos storePos _ hspan
  refine ⟨?_, hlast, hstore, ?_⟩
  · intro e he
    rw [readAndUpload] at he
    exact ⟨(hev e he).1, (hev e he).2.1⟩
  · intro hemp
    obtain ⟨h1, h2, h3, h4, h5, h6⟩ := hspan
    have hz : (readLoopF maxB maxL uploadOk content (content.length + 1)
        lastPos (initLoop lastPos storePos)).batchSizeBytes = 0 := by
      rw [h1, hemp]
      rfl
    have hnp : (readLoopF maxB maxL uploadOk content (content.length + 1)
        lastPos (initLoop lastPos storePos)).newPosition =
        (readLoopF maxB maxL uploadOk content (content.length + 1) lastPos
          (initLoop lastPos storePos)).lastPosition := by
      omega
    refine ⟨hnp, ?_⟩
    simp [flush, hemp, hnp]

theorem c1_witness :
    (readAndUpload 1048576 500 (fun _ => true) [97, 10, 98, 10] 0
        0).lastPosition =
      lastCommitted
        (readAndUpload 1048576 500 (fun _ => true) [97, 10, 98, 10] 0
          0).attempts 0 ∧
    (⟨[[97, 10], [98, 10]], 0, 4, true⟩ : UploadEvent).posAfter =
      (⟨[[97, 10], [98, 10]], 0, 4, true⟩ : UploadEvent).prevLast +
        batchBytes [[97, 10], [98, 10]] ∧
    flush (fun _ => true)
        (readLoopF 1048576 500 (fun _ => true) [] 1 0 (initLoop 0 0)) =
      readLoopF 1048576 500 (fun _ => true) [] 1 0 (initLoop 0 0) := by
  refine ⟨(c1_cursor_commits 1048576 500 (fun _ => true) [97, 10, 98, 10] 0
      0).2.1, ?_, ?_⟩
  · exact ((c1_cursor_commits 1048576 500 (fun _ => true) [97, 10, 98, 10] 0
      0).1 ⟨[[97, 10], [98, 10]], 0, 4, true⟩ (by decide)).1
  · exact ((c1_cursor_commits 1048576 500 (fun _ => true) [] 0 0).2.2.2
      (by decide)).2

/-- Claim C4: every batch handed to the upload sink is a nonempty sequence of
whole lines that respects both the byte ceiling and the line-count ceiling,
except that a single line whose own size exceeds the byte ceiling is handed
over alone in a one-line batch (stated for any configuration with a line
ceiling of at least one, as in the source where it is 500). -/
theorem c4_batch_ceilings (maxB maxL : Nat) (uploadOk : Nat → Bool)
    (content : List Nat) (lastPos storePos : Nat) (hL : 1 ≤ maxL) :
    ∀ e ∈ (readAndUpload maxB maxL uploadOk content lastPos
        storePos).attempts,
      e.lines ≠ [] ∧
      ((batchBytes e.lines ≤ maxB ∧ e.lines.length ≤ maxL) ∨
        ∃ l, e.lines = [l] ∧ maxB < l.length) := by
  intro e he
  rw [readAndUpload] at he
  have hspan := readLoopF_span maxB maxL uploadOk content lastPos storePos
    (content.length + 1) lastPos (initLoop lastPos storePos) rfl
    (initLoop_span content lastPos storePos)
  obtain ⟨hev, -, -⟩ :=
    flush_span uploadOk content lastPos storePos _ hspan
  have hceil := readLoopF_ceil maxB maxL uploadOk content hL
    (content.length + 1) lastPos (initLoop lastPos storePos)
    ⟨rfl, Or.inl ⟨Nat.zero_le _, Nat.zero_le _⟩, by simp [initLoop]⟩
  exact ⟨(hev e he).2.2, flush_ceil uploadOk maxB maxL _ hceil e he⟩

theorem c4_witness :
    ([[97, 97, 97, 97, 10]] : List (List Nat)) ≠ [] ∧
    ((batchBytes [[97, 97, 97, 97, 10]] ≤ 3 ∧
        ([[97, 97, 97, 97, 10]] : List (List Nat)).length ≤ 500) ∨
      ∃ l, ([[97, 97, 97, 97, 10]] : List (List Nat)) = [l] ∧
        3 < l.length) :=
  c4_batch_ceilings 3 500 (fun _ => true) [97, 97, 97, 97, 10] 0 0
    (by decide) ⟨[[97, 97, 97, 97, 10]], 0, 5, true⟩ (by decide)

/-- Claim C7: on a file of ten 100-byte newline-terminated lines with byte
ceiling 250 and line ceiling 1000, one cycle in which every upload succeeds
makes exactly five upload calls of two lines each, covering byte spans
0-200, 200-400, 400-600, 600-800 and 800-1000, and the committed cursor after
each successful upload equals the cumulative byte count 200, 400, 600, 800,
1000, ending with both the in-memory cursor and the cursor store at 1000. -/
theorem c7_five_uploads_of_two_lines :
    (readAndUpload 250 1000 (fun _ => true) content1000 0 0).attempts.map
        (fun e => (e.prevLast, e.posAfter, e.lines.length, e.ok)) =
      [(0, 200, 2, true), (200, 400, 2, true), (400, 600, 2, true),
        (600, 800, 2, true), (800, 1000, 2, true)] ∧
    (readAndUpload 250 1000 (fun _ => true) content1000 0 0).attempts.map
        (fun e => e.lines) =
      [[line100, line100], [line100, line100], [line100, line100],
        [line100, line100], [line100, line100]] ∧
    (readAndUpload 250 1000 (fun _ => true) content1000 0 0).lastPosition =
      1000 ∧
    (readAndUpload 250 1000 (fun _ => true) content1000 0 0).stateFilePos =
      1000 := by
  set_option maxRecDepth 10000 in decide

/-- Claim C2 (counterexample): on the file made of the complete line 97 10 and
the unterminated trailing bytes 98 99, the cycle does not leave the partial
content unread: readline returns it, the batch receives it, and the committed
cursor lands at 4, strictly past byte 2, the end of the last complete line,
refuting the claim as stated. -/
theorem c2_counterexample :
    (readAndUpload 1048576 500 (fun _ => true) [97, 10, 98, 99] 0
        0).stateFilePos = 4 ∧
    (readAndUpload 1048576 500 (fun _ => true) [97, 10, 98, 99] 0
        0).lastPosition = 4 ∧
    (readAndUpload 1048576 500 (fun _ => true) [97, 10, 98, 99] 0
        0).attempts.map (fun e => e.lines) = [[[97, 10], [98, 99]]] ∧
    ¬ ([98, 99] : List Nat).getLast? = some NEWLINE ∧
    ¬ (readAndUpload 1048576 500 (fun _ => true) [97, 10, 98, 99] 0
        0).stateFilePos ≤ 2 := by
  decide

/-- Claim C2 (amended): the reader consumes unterminated trailing content as
well: readline returns the final partial segment, it joins the batch, and with
succeeding uploads the committed cursor advances to the end of the whole file,
past the last complete line; when the file ends in a newline every line handed
to an upload is newline-terminated. -/
theorem c2_trailing_content_consumed (maxB maxL : Nat)
    (uploadOk : Nat → Bool) (content : List Nat) (lastPos storePos : Nat) :
    ((∀ n, uploadOk n = true) → lastPos < content.length →
      (readAndUpload maxB maxL uploadOk content lastPos
          storePos).stateFilePos = content.length ∧
      (readAndUpload maxB maxL uploadOk content lastPos
          storePos).lastPosition = content.length) ∧
    (content.getLast? = some NEWLINE →
      ∀ e ∈ (readAndUpload maxB maxL uploadOk content lastPos
          storePos).attempts,
        ∀ l ∈ e.lines, l.getLast? = some NEWLINE) := by
  constructor
  · intro hok hlt
    obtain ⟨hpos, hbat⟩ := readLoopF_complete maxB maxL uploadOk content hok
      (content.length + 1) lastPos (initLoop lastPos storePos)
      (by omega) rfl (by omega)
    have hbne := hbat (Or.inr hlt)
    rw [readAndUpload, flush, if_neg hbne]
    simp only [hok]
    rw [if_pos trivial]
    exact ⟨hpos, hpos⟩
  · intro hterm e he l hl
    obtain ⟨hev, hba⟩ := readLoopF_newline maxB maxL uploadOk content hterm
      (content.length + 1) lastPos (initLoop lastPos storePos)
      (by simp [initLoop]) (by simp [initLoop])
    rw [readAndUpload] at he
    rcases flush_attempts_cases uploadOk _ e he with h | rfl
    · exact hev e h l hl
    · exact hba l hl

theorem c2_witness :
    ((readAndUpload 1048576 500 (fun _ => true) [97, 10] 0 0).stateFilePos =
        2 ∧
      (readAndUpload 1048576 500 (fun _ => true) [97, 10] 0 0).lastPosition =
        2) ∧
    ([97, 10] : List Nat).getLast? = some NEWLINE := by
  constructor
  · exact (c2_trailing_content_consumed 1048576 500 (fun _ => true) [97, 10]
      0 0).1 (fun n => rfl) (by decide)
  · exact (c2_trailing_content_consumed 1048576 500 (fun _ => true) [97, 10]
      0 0).2 (by decide) ⟨[[97, 10]], 0, 2, true⟩ (by decide) [97, 10]
      (by decide)

/-- Claim C3 (counterexample): a file-not-found raised while opening the file
for reading, with identity tracked and the committed cursor at 5, makes the
handler reset the in-memory cursor to 0 rather than leave it at 5: the cycle
ends in state cursor 0, no tracked inode, store 5 — not in the state cursor 5,
no tracked inode, store 5 that the claim predicts. -/
theorem c3_counterexample :
    runCycle ⟨true, none, 1, 10, some PyExc.fileNotFound, [], fun _ => false⟩
        ⟨5, some 1, 5⟩ = CycleOutcome.next ⟨0, none, 5⟩ ∧
    runCycle ⟨true, none, 1, 10, some PyExc.fileNotFound, [], fun _ => false⟩
        ⟨5, some 1, 5⟩ ≠ CycleOutcome.next ⟨5, none, 5⟩ := by
  decide

/-- Claim C3 (amended): a file-not-found during the cycle is caught and
logged; the handler resets the identity tracking AND the in-memory cursor to
0 (one more variable than the claim allowed), while the cursor store keeps
its last committed value. -/
theorem c3_fnf_resets_cursor_too (env : CycleEnv) (st stAt : AgentState)
    (h : cycleBody env st = .error (PyExc.fileNotFound, stAt)) :
    runCycle env st = CycleOutcome.next ⟨0, none, st.stateFilePos⟩ :=
  fnf_reset_core env st stAt h

theorem c3_witness :
    runCycle ⟨true, none, 7, 10, some PyExc.fileNotFound, [], fun _ => false⟩
        ⟨5, some 7, 5⟩ = CycleOutcome.next ⟨0, none, 5⟩ :=
  c3_fnf_resets_cursor_too
    ⟨true, none, 7, 10, some PyExc.fileNotFound, [], fun _ => false⟩
    ⟨5, some 7, 5⟩ ⟨5, some 7, 5⟩ rfl

/-- Claim C6: when every upload call fails, the in-memory cursor and the
cursor store end the cycle unchanged, every recorded call indeed failed, the
loop keeps the failed batch instead of clearing it (at most one failed call
occurs inside the loop and its batch survives it), and the lines of the first
upload call are independent of the upload outcomes, so a rerun of the cycle
from the unchanged cursor re-attempts exactly the same first batch
(at-least-once delivery, not exactly-once). -/
theorem c6_failed_upload_keeps_cursor (maxB maxL : Nat) (content : List Nat)
    (lastPos storePos : Nat) :
    (readAndUpload maxB maxL (fun _ => false) content lastPos
        storePos).lastPosition = lastPos ∧
    (readAndUpload maxB maxL (fun _ => false) content lastPos
        storePos).stateFilePos = storePos ∧
    (∀ e ∈ (readAndUpload maxB maxL (fun _ => false) content lastPos
        storePos).attempts, e.ok = false) ∧
    ((readLoopF maxB maxL (fun _ => false) content (content.length + 1)
        lastPos (initLoop lastPos storePos)).attempts = [] ∨
      ∃ e, (readLoopF maxB maxL (fun _ => false) content
          (content.length + 1) lastPos (initLoop lastPos storePos)).attempts =
          [e] ∧
        e.ok = false ∧
        (readLoopF maxB maxL (fun _ => false) content (content.length + 1)
          lastPos (initLoop lastPos storePos)).linesBatch = e.lines) ∧
    (∀ ok2 : Nat → Bool,
      firstUploadLines (readAndUpload maxB maxL ok2 content lastPos
          storePos) =
        firstUploadLines (readAndUpload maxB maxL (fun _ => false) content
          lastPos storePos)) := by
  obtain ⟨hall, hlast, hstore⟩ := readAndUpload_allfail maxB maxL _
    (fun n => rfl) content lastPos storePos
  refine ⟨hlast, hstore, hall, ?_, ?_⟩
  · have hloopall := readLoopF_allfail maxB maxL (fun _ => false) content
      (fun n => rfl) (content.length + 1) lastPos (initLoop lastPos storePos)
      (by simp [initLoop])
    rcases readLoopF_fail maxB maxL (fun _ => false) content
        (content.length + 1) lastPos (initLoop lastPos storePos)
        (by simp [initLoop]) with
      hok | ⟨a, e, hatt, hefalse, haok, hbatch, -, -, -⟩
    · left
      by_contra hne
      obtain ⟨e, he⟩ := List.exists_mem_of_ne_nil _ hne
      have h1 := hok e he
      have h2 := hloopall e he
      simp [h1] at h2
    · right
      have ha : a = [] := by
        by_contra hane
        obtain ⟨x, hx⟩ := List.exists_mem_of_ne_nil _ hane
        have hx1 : x.ok = true := haok x hx
        have hx2 : x.ok = false := hloopall x
          (by rw [hatt]; exact List.mem_append.mpr (Or.inl hx))
        simp [hx1] at hx2
      refine ⟨e, ?_, hefalse, hbatch⟩
      rw [hatt, ha]
      rfl
  · intro ok2
    exact readAndUpload_first_indep maxB maxL content lastPos storePos ok2 _

theorem c6_witness :
    (readAndUpload 3 500 (fun _ => false) [97, 97, 10, 98, 98, 10] 0
        0).lastPosition = 0 ∧
    (readAndUpload 3 500 (fun _ => false) [97, 97, 10, 98, 98, 10] 0
        0).stateFilePos = 0 ∧
    (⟨[[97, 97, 10]], 0, 3, false⟩ : UploadEvent).ok = false ∧
    firstUploadLines (readAndUpload 3 500 (fun _ => true)
        [97, 97, 10, 98, 98, 10] 0 0) =
      firstUploadLines (readAndUpload 3 500 (fun _ => false)
        [97, 97, 10, 98, 98, 10] 0 0) := by
  refine ⟨(c6_failed_upload_keeps_cursor 3 500 [97, 97, 10, 98, 98, 10] 0
      0).1,
    (c6_failed_upload_keeps_cursor 3 500 [97, 97, 10, 98, 98, 10] 0 0).2.1,
    ?_, (c6_failed_upload_keeps_cursor 3 500 [97, 97, 10, 98, 98, 10] 0
      0).2.2.2.2 (fun _ => true)⟩
  exact (c6_failed_upload_keeps_cursor 3 500 [97, 97, 10, 98, 98, 10] 0
    0).2.2.1 ⟨[[97, 97, 10]], 0, 3, false⟩ (by decide)

/-- Claim C10: when an upload triggered by the overflow check fails mid-read,
the loop stops with the failed batch intact — the overflow-triggering line is
not appended, and the positions still frame exactly the failed batch, so that
line is re-read from the unchanged cursor next cycle — and the end-of-cycle
flush then makes exactly one more upload call carrying the very same lines:
a batch whose upload failed inside the loop is attempted twice in the cycle,
not once. -/
theorem c10_failed_overflow_attempted_twice (maxB maxL : Nat)
    (uploadOk : Nat → Bool) (content : List Nat) (lastPos storePos : Nat)
    (a : List UploadEvent) (e : UploadEvent)
    (hatt : (readLoopF maxB maxL uploadOk content (content.length + 1)
        lastPos (initLoop lastPos storePos)).attempts = a ++ [e])
    (hfail : e.ok = false) :
    (readLoopF maxB maxL uploadOk content (content.length + 1) lastPos
        (initLoop lastPos storePos)).linesBatch = e.lines ∧
    (readLoopF maxB maxL uploadOk content (content.length + 1) lastPos
        (initLoop lastPos storePos)).lastPosition = e.prevLast ∧
    (readLoopF maxB maxL uploadOk content (content.length + 1) lastPos
        (initLoop lastPos storePos)).newPosition = e.posAfter ∧
    e.lines ≠ [] ∧
    (readAndUpload maxB maxL uploadOk content lastPos storePos).attempts =
      (a ++ [e]) ++
        [⟨e.lines, e.prevLast, e.posAfter, uploadOk (a ++ [e]).length⟩] := by
  rcases readLoopF_fail maxB maxL uploadOk content (content.length + 1)
      lastPos (initLoop lastPos storePos) (by simp [initLoop]) with
    hok | ⟨a', e', hatt', hefalse, haok, hbatch, hlastp, hnewp, hne⟩
  · exfalso
    have h1 : e.ok = true := hok e
      (by rw [hatt]; exact List.mem_append.mpr (Or.inr (by simp)))
    simp [hfail] at h1
  · have heq : a ++ [e] = a' ++ [e'] := hatt.symm.trans hatt'
    have hee : e = e' := by
      have h1 : (a ++ [e]).getLast? = some e := List.getLast?_concat a
      have h2 : (a' ++ [e']).getLast? = some e' := List.getLast?_concat a'
      rw [heq, h2] at h1
      exact (Option.some.injEq _ _ ▸ h1.symm :)
    subst hee
    refine ⟨hbatch, hlastp, hnewp, hne, ?_⟩
    rw [readAndUpload, flush,
      if_neg (show ¬ (readLoopF maxB maxL uploadOk content
        (content.length + 1) lastPos (initLoop lastPos storePos)).linesBatch =
          [] by rw [hbatch]; exact hne)]
    dsimp only
    split <;> simp [hatt, hbatch, hlastp, hnewp]

theorem c10_witness :
    (readLoopF 3 500 (fun _ => false) [97, 97, 10, 98, 98, 10] 7 0
        (initLoop 0 0)).linesBatch = [[97, 97, 10]] ∧
    (readAndUpload 3 500 (fun _ => false) [97, 97, 10, 98, 98, 10] 0
        0).attempts =
      [⟨[[97, 97, 10]], 0, 3, false⟩, ⟨[[97, 97, 10]], 0, 3, false⟩] := by
  refine ⟨?_, ?_⟩
  · exact (c10_failed_overflow_attempted_twice 3 500 (fun _ => false)
      [97, 97, 10, 98, 98, 10] 0 0 [] ⟨[[97, 97, 10]], 0, 3, false⟩
      (by decide) rfl).1
  · exact (c10_failed_overflow_attempted_twice 3 500 (fun _ => false)
      [97, 97, 10, 98, 98, 10] 0 0 [] ⟨[[97, 97, 10]], 0, 3, false⟩
      (by decide) rfl).2.2.2.2

theorem cycleBody_ok_store_allfail (env : CycleEnv) (st : AgentState)
    (hfail : ∀ n, env.uploadOk n = false) (st' : AgentState)
    (h : cycleBody env st = .ok st') :
    st'.stateFilePos = st.stateFilePos := by
  simp only [cycleBody] at h
  split at h
  · simp only [Except.ok.injEq] at h
    rw [← h]
  · split at h
    · exact absurd h (by simp)
    · split at h
      · split at h
        · exact absurd h (by simp)
        · simp only [Except.ok.injEq] at h
          rw [← h]
          exact (readAndUpload_allfail MAX_BATCH_SIZE_BYTES MAX_BATCH_LINES
            env.uploadOk hfail env.content _ _).2.2
      · simp only [Except.ok.injEq] at h
        rw [← h]

/-- Claim C5: in a tracking cycle (a last-seen inode is recorded), an inode
change or a size strictly below the cursor resets the cursor to 0 before any
read, and the read of that cycle then starts at offset 0 of the new content;
a tracking cycle whose inode matches and whose size has not shrunk below the
cursor keeps the cursor untouched. -/
theorem c5_rotation_truncation_reset (i lastPos inode size : Nat)
    (env : CycleEnv) (st : AgentState) :
    ((inode ≠ i ∨ size < lastPos) →
      rotationCheck (some i) lastPos inode size = 0) ∧
    (inode = i → lastPos ≤ size →
      rotationCheck (some i) lastPos inode size = lastPos) ∧
    (env.fileExists = true → env.statExc = none → env.openExc = none →
      st.currentInode = some i →
      (env.inode ≠ i ∨ env.size < st.lastPosition) → 0 < env.size →
      cycleBody env st = .ok
        ⟨(readAndUpload MAX_BATCH_SIZE_BYTES MAX_BATCH_LINES env.uploadOk
            env.content 0 st.stateFilePos).lastPosition,
          some env.inode,
          (readAndUpload MAX_BATCH_SIZE_BYTES MAX_BATCH_LINES env.uploadOk
            env.content 0 st.stateFilePos).stateFilePos⟩) := by
  refine ⟨?_, ?_, ?_⟩
  · intro h
    simp only [rotationCheck, if_pos h]
  · intro h1 h2
    have hneg : ¬ (inode ≠ i ∨ size < lastPos) := by omega
    simp only [rotationCheck, if_neg hneg]
  · intro hex hstat hopen hinode hrot hsize
    have hrc : rotationCheck st.currentInode st.lastPosition env.inode
        env.size = 0 := by
      rw [hinode]
      simp only [rotationCheck, if_pos hrot]
    simp only [cycleBody, hstat, hopen, hrc]
    rw [if_neg (show ¬ env.fileExists = false by simp [hex])]
    rw [if_pos hsize]

theorem c5_witness :
    rotationCheck (some 1) 9 2 5 = 0 ∧
    rotationCheck (some 1) 4 1 5 = 4 ∧
    cycleBody ⟨true, none, 2, 5, none, [97, 10], fun _ => true⟩
        ⟨9, some 1, 9⟩ = .ok
      ⟨(readAndUpload MAX_BATCH_SIZE_BYTES MAX_BATCH_LINES (fun _ => true)
          [97, 10] 0 9).lastPosition,
        some 2,
        (readAndUpload MAX_BATCH_SIZE_BYTES MAX_BATCH_LINES (fun _ => true)
          [97, 10] 0 9).stateFilePos⟩ := by
  refine ⟨?_, ?_, ?_⟩
  · exact (c5_rotation_truncation_reset 1 9 2 5
      ⟨true, none, 2, 5, none, [97, 10], fun _ => true⟩ ⟨9, some 1, 9⟩).1
      (Or.inl (by decide))
  · exact (c5_rotation_truncation_reset 1 4 1 5
      ⟨true, none, 2, 5, none, [97, 10], fun _ => true⟩ ⟨9, some 1, 9⟩).2.1
      rfl (by decide)
  · exact (c5_rotation_truncation_reset 1 9 2 5
      ⟨true, none, 2, 5, none, [97, 10], fun _ => true⟩ ⟨9, some 1, 9⟩).2.2
      rfl rfl rfl rfl (Or.inl (by decide)) (by decide)

/-- Claim C8: no exception raised inside a cycle's body escapes it — for every
environment and state the cycle ends in a normal next-state, never in a crash
outcome (FileNotFoundError and IOError have dedicated handlers, the Exception
catch-all covers every other Exception subclass, and upload and cursor-store
errors are already swallowed inside their helper functions) — while at startup
a missing or empty instance id or region makes the agent refuse to start. -/
theorem c8_cycle_never_crashes_startup_gated :
    (∀ (env : CycleEnv) (st : AgentState), ∃ st',
      runCycle env st = CycleOutcome.next st') ∧
    (∀ r : Option String, startupOk none r = false) ∧
    (∀ i : Option String, startupOk i none = false) ∧
    (∀ i r : String, startupOk (some i) (some r) =
      (!i.isEmpty && !r.isEmpty)) := by
  refine ⟨?_, ?_, ?_, ?_⟩
  · intro env st
    cases h : cycleBody env st with
    | ok st' => exact ⟨st', by simp [runCycle, h]⟩
    | error p =>
      obtain ⟨exc, stAt⟩ := p
      cases exc with
      | fileNotFound =>
        exact ⟨⟨0, none, stAt.stateFilePos⟩, by simp [runCycle, h, handles]⟩
      | ioError => exact ⟨stAt, by simp [runCycle, h, handles]⟩
      | otherError => exact ⟨stAt, by simp [runCycle, h, handles]⟩
  · intro r
    rfl
  · intro i
    simp [startupOk, truthy, Bool.and_false]
  · intro i r
    rfl

/-- Claim C9: a rotation/truncation reset and the file-not-found reset only
touch the in-memory state: while no upload succeeds a cycle never changes the
cursor-store value, a detected rotation ends the cycle with in-memory cursor 0
and the store untouched, the file-not-found handler ends it with cursor 0, no
tracked inode and the store untouched, and a restarted process reads the stale
pre-reset offset back from the store, not 0. -/
theorem c9_reset_not_persisted (env : CycleEnv) (st : AgentState)
    (hfail : ∀ n, env.uploadOk n = false) :
    (∀ st', runCycle env st = CycleOutcome.next st' →
      st'.stateFilePos = st.stateFilePos) ∧
    (env.fileExists = true → env.statExc = none → env.openExc = none →
      ∀ i, st.currentInode = some i →
      (env.inode ≠ i ∨ env.size < st.lastPosition) →
      ∃ st', runCycle env st = CycleOutcome.next st' ∧
        st'.lastPosition = 0 ∧ st'.stateFilePos = st.stateFilePos) ∧
    (∀ stAt, cycleBody env st = .error (PyExc.fileNotFound, stAt) →
      runCycle env st = CycleOutcome.next ⟨0, none, st.stateFilePos⟩) ∧
    (resumeAfterRestart st.stateFilePos).lastPosition = st.stateFilePos := by
  refine ⟨?_, ?_, ?_, rfl⟩
  · intro st' hrun
    cases h : cycleBody env st with
    | ok st1 =>
      simp only [runCycle, h] at hrun
      have hst : st1 = st' := by
        injection hrun
      rw [← hst]
      exact cycleBody_ok_store_allfail env st hfail st1 h
    | error p =>
      obtain ⟨exc, stAt⟩ := p
      have hstore := cycleBody_error_store env st exc stAt h
      cases exc with
      | fileNotFound =>
        simp only [runCycle, h, handles, if_true] at hrun
        injection hrun with hst
        rw [← hst]
        exact hstore
      | ioError =>
        simp only [runCycle, h, handles, if_true] at hrun
        injection hrun with hst
        rw [← hst]
        exact hstore
      | otherError =>
        simp only [runCycle, h, handles, if_true] at hrun
        injection hrun with hst
        rw [← hst]
        exact hstore
  · intro hex hstat hopen i hinode hrot
    have hrc : rotationCheck st.currentInode st.lastPosition env.inode
        env.size = 0 := by
      rw [hinode]
      simp only [rotationCheck, if_pos hrot]
    by_cases hsz : env.size > 0
    · obtain ⟨-, hl, hs⟩ := readAndUpload_allfail MAX_BATCH_SIZE_BYTES
        MAX_BATCH_LINES env.uploadOk hfail env.content 0 st.stateFilePos
      refine ⟨⟨0, some env.inode, st.stateFilePos⟩, ?_, rfl, rfl⟩
      simp only [runCycle, cycleBody, hstat, hopen, hrc]
      rw [if_neg (show ¬ env.fileExists = false by simp [hex])]
      rw [if_pos hsz]
      simp [hl, hs]
    · refine ⟨⟨0, some env.inode, st.stateFilePos⟩, ?_, rfl, rfl⟩
      simp only [runCycle, cycleBody, hstat, hrc]
      rw [if_neg (show ¬ env.fileExists = false by simp [hex])]
      rw [if_neg hsz]
  · intro stAt h
    exact fnf_reset_core env st stAt h

theorem c9_witness :
    (⟨0, some 3, 9⟩ : AgentState).stateFilePos =
      (⟨9, some 2, 9⟩ : AgentState).stateFilePos ∧
    (⟨0, some 3, 9⟩ : AgentState).lastPosition = 0 ∧
    runCycle ⟨true, none, 3, 4, some PyExc.fileNotFound, [], fun _ => false⟩
        ⟨5, some 3, 5⟩ = CycleOutcome.next ⟨0, none, 5⟩ ∧
    (resumeAfterRestart 9).lastPosition = 9 := by
  refine ⟨?_, ?_, ?_, ?_⟩
  · exact (c9_reset_not_persisted
      ⟨true, none, 3, 4, none, [97, 10, 98, 10], fun _ => false⟩
      ⟨9, some 2, 9⟩ (fun n => rfl)).1 ⟨0, some 3, 9⟩ (by decide)
  · obtain ⟨st', h1, h2, h3⟩ := (c9_reset_not_persisted
      ⟨true, none, 3, 4, none, [97, 10, 98, 10], fun _ => false⟩
      ⟨9, some 2, 9⟩ (fun n => rfl)).2.1 rfl rfl rfl 2 rfl
      (Or.inl (by decide))
    have hconc : runCycle
        ⟨true, none, 3, 4, none, [97, 10, 98, 10], fun _ => false⟩
        ⟨9, some 2, 9⟩ = CycleOutcome.next ⟨0, some 3, 9⟩ := by decide
    have h4 := h1.symm.trans hconc
    injection h4 with hst
    rw [← hst]
    exact h2
  · exact (c9_reset_not_persisted
      ⟨true, none, 3, 4, some PyExc.fileNotFound, [], fun _ => false⟩
      ⟨5, some 3, 5⟩ (fun n => rfl)).2.2.1 ⟨0, some 3, 5⟩ rfl
  · exact (c9_reset_not_persisted
      ⟨true, none, 3, 4, none, [97, 10, 98, 10], fun _ => false⟩
      ⟨9, some 2, 9⟩ (fun n => rfl)).2.2.2
